import Mathlib

/-!
# Verification of the stenographer phonetic-tokenization pipeline

Shallow embedding of `src/stenographer/models/tokenizers.py` and proofs of
the specification claims about it.  Python strings are `String`, token
sequences are `List String`, Python dictionaries are association lists
`List (String × String)` in insertion order (keys unique, assignment to an
existing key overwrites its value in place), and fallible code returns
`Except`.
-/

namespace Stenographer

/-- The digit alphabet `_NUMBERS = set('0123456789')` of the source module.
Only membership is ever used, so a list models the Python set. -/
def numbersAlphabet : List Char := "0123456789".toList

/-- The letter alphabet `_LETTERS = set('abcdefghijklmnopqrstuvwxyz')`. -/
def lettersAlphabet : List Char := "abcdefghijklmnopqrstuvwxyz".toList

/-! ## Association lists modelling Python dicts -/

/-- Python dict assignment `d[k] = v`: overwrite the value of an existing
key in place, otherwise append the new binding at the end (insertion
order). -/
def insertAssoc {α β : Type} [BEq α] : List (α × β) → α → β → List (α × β)
  | [], k, v => [(k, v)]
  | (k1, v1) :: t, k, v =>
    if k1 == k then (k1, v) :: t else (k1, v1) :: insertAssoc t k v

/-- Python `{**a, **b}`: start from `a` and assign every binding of `b`
in order (later assignments win). -/
def mergeAssoc {α β : Type} [BEq α] (a b : List (α × β)) : List (α × β) :=
  b.foldl (fun acc p => insertAssoc acc p.1 p.2) a

/-! ## Character-level string helpers

The Python code relies on `str.lower`, `' '.join`, `str.split`,
`needle in hay`, `str.replace` and `re` helpers restricted to literal
patterns / character classes.  They are embedded here as executable
functions over `List Char`. -/

/-- One character of Python `str.lower`, restricted to ASCII (the pipeline
lower-cases before every other stage and the alphabets are ASCII). -/
def charLower (c : Char) : Char :=
  if 65 ≤ c.toNat ∧ c.toNat ≤ 90 then Char.ofNat (c.toNat + 32) else c

/-- `_Text2Lower.transform` / the `s.lower()` call of `encode`:
lower-case every character of the document. -/
def text2lower_transform (s : String) : String :=
  String.mk (s.toList.map charLower)

/-- Split a character list at every character satisfying `p`, keeping
empty chunks (the behaviour of `re.split` on a character class). -/
def splitChunks (p : Char → Bool) : List Char → List (List Char)
  | [] => [[]]
  | c :: t =>
    match splitChunks p t with
    | [] => [[]]
    | h :: r => if p c then [] :: h :: r else (c :: h) :: r

/-- Python `s.split()`: split on whitespace runs and drop empty pieces. -/
def splitWs (s : String) : List String :=
  ((splitChunks (fun c => c.isWhitespace) s.toList).map String.mk).filter
    (fun w => w ≠ "")

/-- Python `' '.join(l)`. -/
def joinSp : List String → String
  | [] => ""
  | [x] => x
  | x :: xs => x ++ " " ++ joinSp xs

/-- Is `needle` a prefix of `hay`? -/
def isPrefixL : List Char → List Char → Bool
  | [], _ => true
  | _ :: _, [] => false
  | a :: as, b :: bs => a == b && isPrefixL as bs

/-- Python `needle in hay` on strings (character-level substring test). -/
def containsL (needle : List Char) : List Char → Bool
  | [] => isPrefixL needle []
  | c :: t => isPrefixL needle (c :: t) || containsL needle t

/-- Python `needle in hay` on `String`. -/
def strContains (hay needle : String) : Bool :=
  containsL needle.toList hay.toList

/-- Fuelled worker for Python `str.replace` (replace every non-overlapping
occurrence, left to right; an empty pattern inserts the replacement before
every character and at the end, as in Python). -/
def replaceAllGo (needle repl : List Char) : Nat → List Char → List Char
  | 0, hay => hay
  | _ + 1, [] => if needle = [] then repl else []
  | f + 1, c :: t =>
    if needle = [] then repl ++ c :: replaceAllGo needle repl f t
    else if isPrefixL needle (c :: t) then
      repl ++ replaceAllGo needle repl f ((c :: t).drop needle.length)
    else c :: replaceAllGo needle repl f t

/-- Python `s.replace(old, new)`. -/
def strReplace (s old new : String) : String :=
  String.mk (replaceAllGo old.toList new.toList (s.toList.length + 1)
    s.toList)

/-! ## `_Abbreviation` -/

/-- Body of the loop of `_Abbreviation.transform`: a word is replaced by
its dictionary entry when present, otherwise kept. -/
def abbreviationLookup (abbr_dict : List (String × String)) (w : String) :
    String :=
  ((List.lookup w abbr_dict).getD w)

/-- The word-by-word substitution loop of `_Abbreviation.transform`
(lines building `res` from `x_split`): each slot of the split document is
mapped independently, a multi-word expansion occupying a single slot. -/
def abbreviationMapWords (abbr_dict : List (String × String)) :
    List String → List String
  | [] => []
  | w :: t => abbreviationLookup abbr_dict w :: abbreviationMapWords abbr_dict t

/-- `_Abbreviation.transform`: split the document on whitespace, replace
each word that is a dictionary key by its expansion, and re-join with
single spaces. -/
def abbreviation_transform (abbr_dict : List (String × String))
    (x : String) : String :=
  joinSp (abbreviationMapWords abbr_dict (splitWs x))

/-! ## `_PuncTokenization`

`transform` delegates to `nltk.wordpunct_tokenize`, an external library
call.  Modelled from the library's documented behaviour: the regex
`\w+|[^\w\s]+`, i.e. maximal runs of word characters and maximal runs of
non-word non-space characters, restricted to ASCII word characters. -/

/-- ASCII model of the regex class `\w`. -/
def isWordChar (c : Char) : Bool :=
  c.isAlpha || c.isDigit || c = '_'

/-- Fuelled scanner for `\w+|[^\w\s]+`. -/
def wordpunctGo : Nat → List Char → List String
  | 0, _ => []
  | _ + 1, [] => []
  | f + 1, c :: t =>
    if c.isWhitespace then wordpunctGo f t
    else
      let run := (c :: t).takeWhile
        (fun d => !d.isWhitespace && isWordChar d == isWordChar c)
      String.mk run :: wordpunctGo f ((c :: t).drop run.length)

/-- `_PuncTokenization.transform` (model of `nltk.wordpunct_tokenize`). -/
def puncTokenization_transform (s : String) : List String :=
  wordpunctGo (s.toList.length + 1) s.toList

/-! ## `_NumberTokenizer` -/

/-- `_NumberTokenizer._filters`: `re.split` on the character class built
from `pattern`, keeping only the non-empty pieces. -/
def numberTokenizer_filters (s : String) (pattern : List Char) :
    List String :=
  ((splitChunks (fun c => c ∈ pattern) s.toList).map String.mk).filter
    (fun w => w ≠ "")

/-- Start positions of the non-overlapping, left-to-right matches of the
literal pattern `needle` in `hay` (`re.finditer` with an escaped word). -/
def occurrencesGo (needle : List Char) : Nat → Nat → List Char → List Nat
  | 0, _, _ => []
  | _ + 1, _, [] => []
  | f + 1, pos, c :: t =>
    if isPrefixL needle (c :: t) then
      pos :: occurrencesGo needle f (pos + needle.length)
        ((c :: t).drop needle.length)
    else occurrencesGo needle f (pos + 1) t

/-- All match start positions of `needle` in `hay`. -/
def occurrences (needle hay : List Char) : List Nat :=
  occurrencesGo needle (hay.length + 1) 0 hay

/-- Insertion sort step (Python `sorted` on the collected indexes). -/
def orderedInsertNat (n : Nat) : List Nat → List Nat
  | [] => [n]
  | m :: t => if n ≤ m then n :: m :: t else m :: orderedInsertNat n t

/-- Python `sorted` on a list of indexes. -/
def sortNats (l : List Nat) : List Nat :=
  l.foldr orderedInsertNat []

/-- `_NumberTokenizer._pos_dict`: for every extracted sub-word, record the
start position of each of its matches in the original token; the index
list keeps duplicates (one entry per match of each copy of the sub-word),
while the dict keyed by position keeps the last assignment. -/
def numberTokenizer_pos_dict (words : List String) (s : String) :
    List Nat × List (Nat × String) :=
  let step := fun (acc : List Nat × List (Nat × String)) (w : String) =>
    (occurrences w.toList s.toList).foldl
      (fun a ind => (a.1 ++ [ind], insertAssoc a.2 ind w)) acc
  let res := words.foldl step ([], [])
  (sortNats res.1, res.2)

/-- Body of the loop of `_NumberTokenizer.transform` for one token.  The
source binds the runs split on the digit class to `numbers` and those
split on the letter class to `letters` (the roles are effectively
swapped, which the merged dict makes irrelevant). -/
def numberTokenizerWord (numbers letters : List Char) (word : String) :
    List String :=
  let number_found := word.toList.any (fun c => c ∈ numbers)
  let letter_found := word.toList.any (fun c => c ∈ letters)
  if !(number_found && letter_found) then [word]
  else
    let nums := numberTokenizer_filters word numbers
    let ltrs := numberTokenizer_filters word letters
    let numRes := numberTokenizer_pos_dict nums word
    let wrdRes0 := numberTokenizer_pos_dict ltrs word
    let wrd_res := mergeAssoc numRes.2 wrdRes0.2
    let pos_res := sortNats (numRes.1 ++ wrdRes0.1)
    pos_res.map (fun pos => (List.lookup pos wrd_res).getD "")

/-- `_NumberTokenizer.transform`: each token of the sequence is appended
unchanged when it does not mix digits and letters, and otherwise replaced
by the extracted runs in ascending position order. -/
def numberTokenizer_transform (numbers letters : List Char)
    (x : List String) : List String :=
  x.flatMap (numberTokenizerWord numbers letters)

/-! ## `_Num2Text` -/

/-- The value a `_Num2Text.transform` call returns: `''` for an empty
input and the rewritten token list otherwise. -/
inductive PyValue : Type
  | str : String → PyValue
  | list : List String → PyValue
  deriving DecidableEq, Repr

/-- Python `int(s)` on the strings reaching it here: fails on the empty
string, and otherwise reads the decimal digits. -/
def parseDigits (s : String) : Except String Nat :=
  if s = "" then Except.error "invalid literal for int() with base 10"
  else Except.ok (s.toList.foldl (fun a c => 10 * a + (c.toNat - 48)) 0)

/-- One token of the loop of `_Num2Text.transform`.  `n2wInt` and
`n2wFloat` stand for the external `num2words` library (the float branch
receives the normalized literal); `remove_dash` post-processes the
transcription. -/
def num2TextToken (numbers : List Char) (n2wInt : Nat → String)
    (n2wFloat : String → String) (remove_dash : Bool) (num : String) :
    Except String String :=
  let number_found := num.toList.all (fun c => c ∈ numbers)
  if !number_found then Except.ok num
  else
    let num1 := if ',' ∈ num.toList then strReplace num "," "." else num
    if '.' ∈ num1.toList then
      let trans := n2wFloat num1
      Except.ok (if remove_dash then strReplace trans "-" " " else trans)
    else do
      let v ← parseDigits num1
      let trans := n2wInt v
      Except.ok (if remove_dash then strReplace trans "-" " " else trans)

/-- `_Num2Text.transform`: `''` on the empty sequence, otherwise the
token list with every purely numeric token replaced by its
transcription (the copy-and-overwrite of the source is an element-wise
rewrite, aborted at the first parsing error as a raised exception). -/
def num2text_transform (numbers : List Char) (n2wInt : Nat → String)
    (n2wFloat : String → String) (remove_dash : Bool) (x : List String) :
    Except String PyValue :=
  if x = [] then Except.ok (PyValue.str "")
  else do
    let result ← x.mapM (num2TextToken numbers n2wInt n2wFloat remove_dash)
    pure (PyValue.list result)

/-! ## `_ExprPronunciation` -/

/-- The loop of `_ExprPronunciation.transform` over `self.ipa.items()`:
the expression keys are tested in the dictionary's insertion order; every
occurrence of a matching key in the joined string is replaced and its
pronunciation is appended to `pron_found`. -/
def exprPronunciationGo : List (String × String) → String → List String →
    String × List String
  | [], s, found => (s, found)
  | (expression, pronunciation) :: rest, s, found =>
    if strContains s expression then
      exprPronunciationGo rest (strReplace s expression pronunciation)
        (found ++ [pronunciation])
    else exprPronunciationGo rest s found

/-- `_ExprPronunciation.transform`: join the tokens with single spaces,
substitute the expressions, re-split on whitespace, and return the new
token sequence together with the pronunciations found. -/
def exprPronunciation_transform (ipa : List (String × String))
    (x : List String) : List String × List String :=
  let res := exprPronunciationGo ipa (joinSp x) []
  (splitWs res.1, res.2)

/-! ## `_WordPronunciation` -/

/-- Body of the loop of `_WordPronunciation.transform`: an empty token is
emitted as-is without any lookup, any other token is replaced by its
dictionary entry when present and kept otherwise. -/
def wordPronunciationLookup (ipa : List (String × String)) (w : String) :
    String :=
  if w = "" then w else (List.lookup w ipa).getD w

/-- `_WordPronunciation.transform`. -/
def wordPronunciation_transform (ipa : List (String × String)) :
    List String → List String
  | [] => []
  | w :: t =>
    wordPronunciationLookup ipa w :: wordPronunciation_transform ipa t

/-! ## `PhoneticTokenizer` -/

/-- `PhoneticTokenizer._split`: flatten the per-expression result by
whitespace-splitting each element (iterating a Python string yields its
characters, so the `''` result of `_Num2Text` on an empty document
flattens to `[]`). -/
def phonetic_split : PyValue → List String
  | PyValue.str s => (s.toList.map (fun c => String.mk [c])).flatMap splitWs
  | PyValue.list l => l.flatMap splitWs

/-- The loop of `PhoneticTokenizer._set_to_blank`, walking the sequence
left to right with the running index and the dict `ret` built so far:
a token equal to a found pronunciation becomes the blank `''` and the
dict entry for that value is set to the current index (a later duplicate
overwrites the index). -/
def setToBlankGo (words : List String) :
    Nat → List (String × Nat) → List String →
    List String × List (String × Nat)
  | _, ret, [] => ([], ret)
  | i, ret, w :: t =>
    if w ∈ words then
      let rec1 := setToBlankGo words (i + 1) (insertAssoc ret w i) t
      ("" :: rec1.1, rec1.2)
    else
      let rec1 := setToBlankGo words (i + 1) ret t
      (w :: rec1.1, rec1.2)

/-- `PhoneticTokenizer._set_to_blank`. -/
def set_to_blank (seq words : List String) :
    List String × List (String × Nat) :=
  setToBlankGo words 0 [] seq

/-- `PhoneticTokenizer._fill`: write each recorded pronunciation back at
its recorded position, in dict insertion order. -/
def fill (seq : List String) (word : List (String × Nat)) : List String :=
  word.foldl (fun s p => s.set p.2 p.1) seq

/-- The mask → word-level map → restore cycle that `encode` applies to one
document after `_ExprPronunciation` returned the resolved sequence `s`
and the found pronunciations `pho`. -/
def maskWordRestore (word_ipa : List (String × String))
    (s pho : List String) : List String :=
  let mr := set_to_blank s pho
  fill (wordPronunciation_transform word_ipa mr.1) mr.2

/-- `PhoneticTokenizer.encode` over a batch of documents, with the
loaded dictionaries as parameters and the external `num2words` calls
abstracted as `n2wInt` / `n2wFloat`.  Follows the stage order of the
source: lower-case, abbreviations, punctuation tokenization, number
segmentation, number transcription, flatten, expression substitution,
mask, word-level pronunciation, restore. -/
def encode (abbr_dict expr_ipa word_ipa : List (String × String))
    (n2wInt : Nat → String) (n2wFloat : String → String)
    (x : List String) : Except String (List (List String)) := do
  let x1 := x.map text2lower_transform
  let x2 := x1.map (abbreviation_transform abbr_dict)
  let x3 := x2.map puncTokenization_transform
  let x4 := x3.map (numberTokenizer_transform numbersAlphabet lettersAlphabet)
  let x5 ← x4.mapM (num2text_transform numbersAlphabet n2wInt n2wFloat false)
  let x6 := x5.map phonetic_split
  let x7 := x6.map (exprPronunciation_transform expr_ipa)
  pure (x7.map (fun sp => maskWordRestore word_ipa sp.1 sp.2))

/-! ## `PhoneticTokenizer.get_instance`

The construction-time checks.  The file system is external and enters as
the oracle `isFile`; an omitted argument is `none`.  The spec's error
taxonomy names the `assert` on a missing argument `ValidationError` and
the `FileNotFoundError` on a missing file `ResourceNotFoundError`.
Loading the four JSON resources and building the transformer instances
involve no further checks and are modelled as succeeding. -/

inductive BuildError : Type
  | validation : String → BuildError
  | resourceNotFound : String → BuildError
  deriving DecidableEq, Repr

/-- One iteration of the argument-checking loop of `get_instance`:
presence first, then existence of the file. -/
def checkResource (isFile : String → Bool) (p : Option String) :
    Except BuildError Unit :=
  match p with
  | none => Except.error
      (BuildError.validation "A value of an argument is not defined.")
  | some path =>
    if isFile path then Except.ok ()
    else Except.error (BuildError.resourceNotFound path)

/-- `PhoneticTokenizer.get_instance`: check the four resource arguments in
source order (abbreviations, expression pronunciations, word
pronunciations, phoneme vocabulary); construction succeeds once all four
are present and resolve to files. -/
def get_instance (isFile : String → Bool)
    (abbr_dict expr_pron_dict word_pron_dict phonemes_vocab :
      Option String) : Except BuildError Unit := do
  checkResource isFile abbr_dict
  checkResource isFile expr_pron_dict
  checkResource isFile word_pron_dict
  checkResource isFile phonemes_vocab
  pure ()

/-! ## Helper lemmas -/

theorem charOfNat_toNat (n : Nat) (h : n < 55296) :
    (Char.ofNat n).toNat = n := by
  unfold Char.ofNat
  rw [dif_pos (Or.inl h)]
  rfl

theorem charLower_idem (c : Char) : charLower (charLower c) = charLower c := by
  unfold charLower
  by_cases h : 65 ≤ c.toNat ∧ c.toNat ≤ 90
  · rw [if_pos h]
    have h2 : (Char.ofNat (c.toNat + 32)).toNat = c.toNat + 32 :=
      charOfNat_toNat _ (by omega)
    rw [if_neg (by omega)]
  · rw [if_neg h, if_neg h]

theorem toList_mk (l : List Char) : (String.mk l).toList = l := rfl

/-- `_Abbreviation`'s word loop is an element-wise map. -/
theorem abbreviationMapWords_eq_map (d : List (String × String))
    (ws : List String) :
    abbreviationMapWords d ws = ws.map (abbreviationLookup d) := by
  induction ws with
  | nil => rfl
  | cons w t ih => simp [abbreviationMapWords, ih]

/-- `_WordPronunciation.transform` is an element-wise map. -/
theorem wordPronunciation_transform_eq_map (d : List (String × String))
    (x : List String) :
    wordPronunciation_transform d x = x.map (wordPronunciationLookup d) := by
  induction x with
  | nil => rfl
  | cons w t ih => simp [wordPronunciation_transform, ih]

/-! ## Claim C9 -/

/-- C9: case folding is idempotent — applying `CaseNormalizer`
(`_Text2Lower.transform`, the `lower()` call of `encode`) twice gives the
same result as applying it once, for every string. -/
theorem text2lower_idempotent (s : String) :
    text2lower_transform (text2lower_transform s) = text2lower_transform s := by
  unfold text2lower_transform
  rw [toList_mk, List.map_map]
  have h : charLower ∘ charLower = charLower := funext charLower_idem
  rw [h]

/-! ## Claim C5 -/

/-- C5: `AbbreviationExpander` and `WordPronunciationMapper` preserve the
length of every token sequence and keep the elements position-aligned:
slot `i` of the output is the substitution of slot `i` of the input (a
multi-word expansion occupies the single slot of its abbreviation). -/
theorem length_preservation_abbreviation_wordPronunciation
    (abbr_dict word_ipa : List (String × String)) (ws ts : List String) :
    (abbreviationMapWords abbr_dict ws).length = ws.length ∧
    (∀ i : Nat, (abbreviationMapWords abbr_dict ws)[i]? =
      (ws[i]?).map (abbreviationLookup abbr_dict)) ∧
    (wordPronunciation_transform word_ipa ts).length = ts.length ∧
    (∀ i : Nat, (wordPronunciation_transform word_ipa ts)[i]? =
      (ts[i]?).map (wordPronunciationLookup word_ipa)) := by
  refine ⟨?_, ?_, ?_, ?_⟩
  · rw [abbreviationMapWords_eq_map]; exact List.length_map ws _
  · intro i
    rw [abbreviationMapWords_eq_map]
    exact List.getElem?_map _ ws i
  · rw [wordPronunciation_transform_eq_map]; exact List.length_map ts _
  · intro i
    rw [wordPronunciation_transform_eq_map]
    exact List.getElem?_map _ ts i

/-! ## Claim C7 -/

/-- C7: `WordPronunciationMapper` emits the dictionary pronunciation when
the token is a key, emits the token itself on a lookup miss (no error is
ever raised — the transform is total), and emits an empty-string token
as-is without consulting the dictionary at all. -/
theorem wordPronunciation_lookup_fallback_empty
    (word_ipa : List (String × String)) (w p : String) :
    (w ≠ "" → List.lookup w word_ipa = some p →
      wordPronunciation_transform word_ipa [w] = [p]) ∧
    (List.lookup w word_ipa = none →
      wordPronunciation_transform word_ipa [w] = [w]) ∧
    wordPronunciation_transform word_ipa [""] = [""] := by
  refine ⟨?_, ?_, ?_⟩
  · intro hw hl
    simp [wordPronunciation_transform, wordPronunciationLookup, hw, hl]
  · intro hl
    by_cases hw : w = ""
    · simp [wordPronunciation_transform, wordPronunciationLookup, hw]
    · simp [wordPronunciation_transform, wordPronunciationLookup, hw, hl]
  · simp [wordPronunciation_transform, wordPronunciationLookup]

/-- Witness for C7 at concrete inputs: a key is mapped to its
pronunciation, a missing token falls back to itself, and the empty token
passes through even when `""` is a dictionary key. -/
theorem wordPronunciation_lookup_fallback_empty_witness :
    wordPronunciation_transform [("a", "A")] ["a"] = ["A"] ∧
    wordPronunciation_transform [("a", "A")] ["b"] = ["b"] ∧
    wordPronunciation_transform [("", "E")] [""] = [""] :=
  ⟨(wordPronunciation_lookup_fallback_empty [("a", "A")] "a" "A").1
      (by decide) (by decide),
    (wordPronunciation_lookup_fallback_empty [("a", "A")] "b" "b").2.1
      (by decide),
    (wordPronunciation_lookup_fallback_empty [("", "E")] "" "").2.2⟩

/-! ## Claim C6 -/

/-- C6: `NumeralSegmenter` splits the single token `"123eme"` into exactly
`["123", "eme"]` in that order, and a token that does not contain both a
digit and a letter passes through unchanged. -/
theorem numberTokenizer_mixed_and_passthrough :
    numberTokenizer_transform numbersAlphabet lettersAlphabet ["123eme"] =
      ["123", "eme"] ∧
    ∀ tok : String,
      (tok.toList.any (fun c => c ∈ numbersAlphabet) &&
        tok.toList.any (fun c => c ∈ lettersAlphabet)) = false →
      numberTokenizer_transform numbersAlphabet lettersAlphabet [tok] =
        [tok] := by
  refine ⟨by decide, ?_⟩
  intro tok h
  have hw : numberTokenizerWord numbersAlphabet lettersAlphabet tok = [tok] := by
    simp only [numberTokenizerWord]
    rw [h]
    rfl
  simp [numberTokenizer_transform, hw]

/-- Witness for C6: a digits-only token, a letters-only token and a token
with neither all pass through unchanged. -/
theorem numberTokenizer_mixed_and_passthrough_witness :
    numberTokenizer_transform numbersAlphabet lettersAlphabet ["45"] =
      ["45"] ∧
    numberTokenizer_transform numbersAlphabet lettersAlphabet ["xyz"] =
      ["xyz"] ∧
    numberTokenizer_transform numbersAlphabet lettersAlphabet ["!!"] =
      ["!!"] :=
  ⟨numberTokenizer_mixed_and_passthrough.2 "45" (by decide),
    numberTokenizer_mixed_and_passthrough.2 "xyz" (by decide),
    numberTokenizer_mixed_and_passthrough.2 "!!" (by decide)⟩

/-! ## Claim C3 -/

/-- C3 (failing input): on `"1a1a"`, where the run `"a"` and the run
`"1"` each occur at two positions, `_NumberTokenizer.transform` emits
every occurrence twice — `_pos_dict` collects the match positions once
per copy of the repeated sub-word, so each position enters the sorted
index list `k` times — yielding eight tokens instead of the four
occurrences. -/
theorem numberTokenizer_duplicate_runs_eval :
    numberTokenizer_transform numbersAlphabet lettersAlphabet ["1a1a"] =
      ["1", "1", "a", "a", "1", "1", "a", "a"] := by decide

/-! ## Claim C4 -/

/-- C4 (failing input): a token holding a decimal separator is rejected
by the all-digits guard of `_Num2Text.transform` (`','` and `'.'` are not
in the digit alphabet), so `"3,14"` and `"3.14"` pass through unchanged
for every transcription backend — the separator normalization and the
float branch are unreachable. -/
theorem num2text_decimal_token_unchanged :
    ∀ (n2wInt : Nat → String) (n2wFloat : String → String),
      num2text_transform numbersAlphabet n2wInt n2wFloat false ["3,14"] =
        Except.ok (PyValue.list ["3,14"]) ∧
      num2text_transform numbersAlphabet n2wInt n2wFloat false ["3.14"] =
        Except.ok (PyValue.list ["3.14"]) := by
  intro n2wInt n2wFloat
  exact ⟨rfl, rfl⟩

/-! ## Claim C2 -/

/-- C2 (counterexample): with the dictionary holding the shorter key
`"a"` before the longer overlapping key `"a b"`, `_ExprPronunciation`
applies the shorter key first and the longer expression never matches —
the result is not the longest-match result `(["Y"], ["Y"])`, so the keys
are not tested longest-first. -/
theorem expr_longest_first_counterexample :
    exprPronunciation_transform [("a", "X"), ("a b", "Y")] ["a", "b"] =
      (["X", "b"], ["X"]) ∧
    exprPronunciation_transform [("a", "X"), ("a b", "Y")] ["a", "b"] ≠
      ((["Y"], ["Y"]) : List String × List String) := by
  exact ⟨by decide, by decide⟩

/-- C2 (amended): `_ExprPronunciation` tests the expression keys in the
dictionary's insertion order, so the outcome depends on that order: the
same two keys produce the longest-match result only when the longer key
comes first, and the shorter key pre-empts it when it comes first. -/
theorem expr_insertion_order_amended :
    exprPronunciation_transform [("a b", "Y"), ("a", "X")] ["a", "b"] =
      (["Y"], ["Y"]) ∧
    exprPronunciation_transform [("a", "X"), ("a b", "Y")] ["a", "b"] =
      (["X", "b"], ["X"]) := by
  exact ⟨by decide, by decide⟩

/-! ## Claim C10 -/

/-- A non-empty token never makes the per-token transcription fail: only
`int('')` can raise, and the all-digits guard sends every other shape to
a total branch. -/
theorem num2TextToken_ok (n2wInt : Nat → String) (n2wFloat : String → String)
    (rd : Bool) (t : String) (h : t ≠ "") :
    ∃ s, num2TextToken numbersAlphabet n2wInt n2wFloat rd t =
      Except.ok s := by
  simp only [num2TextToken]
  split
  · exact ⟨t, rfl⟩
  · rename_i h1
    have hall : ∀ c ∈ t.toList, c ∈ numbersAlphabet := by
      intro c hc
      have h2 : t.toList.all (fun c => decide (c ∈ numbersAlphabet)) = true := by
        revert h1
        cases t.toList.all (fun c => decide (c ∈ numbersAlphabet)) <;> simp
      exact of_decide_eq_true (List.all_eq_true.mp h2 c hc)
    have hc : ',' ∉ t.toList := by
      intro hm
      have := hall ',' hm
      simp [numbersAlphabet] at this
    have hd : '.' ∉ t.toList := by
      intro hm
      have := hall '.' hm
      simp [numbersAlphabet] at this
    rw [if_neg hc, if_neg hd]
    rw [parseDigits, if_neg h]
    exact ⟨_, rfl⟩

/-- Mapping the per-token transcription over a list without empty tokens
succeeds and preserves the length. -/
theorem mapM_num2TextToken_ok (n2wInt : Nat → String)
    (n2wFloat : String → String) (rd : Bool) :
    ∀ x : List String, (∀ t ∈ x, t ≠ "") →
      ∃ l, x.mapM (num2TextToken numbersAlphabet n2wInt n2wFloat rd) =
        Except.ok l ∧ l.length = x.length := by
  intro x
  induction x with
  | nil =>
    intro _
    exact ⟨[], by rw [List.mapM_nil]; rfl, rfl⟩
  | cons t rest ih =>
    intro h
    obtain ⟨s, hs⟩ := num2TextToken_ok n2wInt n2wFloat rd t (h t (by simp))
    obtain ⟨l, hl, hlen⟩ := ih (fun u hu => h u (by simp [hu]))
    refine ⟨s :: l, ?_, by simp [hlen]⟩
    rw [List.mapM_cons, hs, hl]
    rfl

/-- C10 (counterexample): the claim's length statement does not hold on
every non-empty input — on `[""]` the transform raises (`all()` over no
characters makes `''` count as numeric and `int('')` fails) instead of
returning a list. -/
theorem num2text_empty_token_error :
    num2text_transform numbersAlphabet (fun _ => "") (fun s => s) false
      [""] = Except.error "invalid literal for int() with base 10" := rfl

/-- C10 (amended): on the empty token sequence `_Num2Text.transform`
returns the empty string `''`, not a token sequence; on every non-empty
input free of empty-string tokens it returns a token list of the same
length as the input. -/
theorem num2text_empty_and_length_amended (n2wInt : Nat → String)
    (n2wFloat : String → String) (rd : Bool) :
    num2text_transform numbersAlphabet n2wInt n2wFloat rd [] =
      Except.ok (PyValue.str "") ∧
    ∀ x : List String, x ≠ [] → "" ∉ x →
      ∃ l, num2text_transform numbersAlphabet n2wInt n2wFloat rd x =
        Except.ok (PyValue.list l) ∧ l.length = x.length := by
  refine ⟨rfl, ?_⟩
  intro x hx hne
  obtain ⟨l, hl, hlen⟩ := mapM_num2TextToken_ok n2wInt n2wFloat rd x
    (fun t ht he => hne (he ▸ ht))
  refine ⟨l, ?_, hlen⟩
  simp only [num2text_transform]
  rw [if_neg hx, hl]
  rfl

/-- Witness for C10's amended statement at concrete inputs: the empty
sequence gives `''`, and `["7"]` gives a one-token list. -/
theorem num2text_empty_and_length_amended_witness :
    num2text_transform numbersAlphabet (fun _ => "sept") (fun s => s)
      false [] = Except.ok (PyValue.str "") ∧
    ∃ l, num2text_transform numbersAlphabet (fun _ => "sept")
      (fun s => s) false ["7"] = Except.ok (PyValue.list l) ∧
      l.length = 1 :=
  ⟨(num2text_empty_and_length_amended (fun _ => "sept") (fun s => s)
      false).1,
    (num2text_empty_and_length_amended (fun _ => "sept") (fun s => s)
      false).2 ["7"] (by decide) (by decide)⟩

/-! ## Claim C8 -/

@[simp]
theorem exceptBind_ok {ε α β : Type} (a : α) (f : α → Except ε β) :
    (Except.ok a >>= f) = f a := rfl

@[simp]
theorem exceptBind_error {ε α β : Type} (er : ε) (f : α → Except ε β) :
    ((Except.error er : Except ε α) >>= f) = Except.error er := rfl

/-- C8 (counterexample): with the first resource path present but not a
file and the second argument omitted, construction fails with the
resource error, not the validation error the claim requires for an
omitted argument — the four arguments are checked in order, each for
presence and then existence. -/
theorem get_instance_mixed_counterexample :
    get_instance (fun _ => false) (some "a") none (some "b") (some "c") =
      Except.error (BuildError.resourceNotFound "a") ∧
    BuildError.resourceNotFound "a" ≠
      BuildError.validation "A value of an argument is not defined." := by
  exact ⟨rfl, by decide⟩

/-- C8 (amended): the four resource arguments are checked in source order
(abbreviations, expressions, words, phonemes), each first for presence
and then for existence; construction succeeds when all four are present
and resolve, fails with `ResourceNotFoundError` when all are present and
some does not resolve, and fails with `ValidationError` when some
argument is omitted and every present argument resolves. -/
theorem get_instance_check_order_amended (isFile : String → Bool)
    (a e w p : Option String) :
    ((∀ q ∈ [a, e, w, p], ∃ s, q = some s ∧ isFile s = true) →
      get_instance isFile a e w p = Except.ok ()) ∧
    ((∀ q ∈ [a, e, w, p], q ≠ none) →
      (∃ q ∈ [a, e, w, p], ∃ s, q = some s ∧ isFile s = false) →
      ∃ s, get_instance isFile a e w p =
        Except.error (BuildError.resourceNotFound s) ∧
        isFile s = false) ∧
    ((∃ q ∈ [a, e, w, p], q = none) →
      (∀ q ∈ [a, e, w, p], ∀ s, q = some s → isFile s = true) →
      get_instance isFile a e w p =
        Except.error (BuildError.validation
          "A value of an argument is not defined.")) := by
  refine ⟨?_, ?_, ?_⟩
  · intro h
    obtain ⟨sa, ha, hfa⟩ := h a (by simp)
    obtain ⟨se, he, hfe⟩ := h e (by simp)
    obtain ⟨sw, hw, hfw⟩ := h w (by simp)
    obtain ⟨sp, hp, hfp⟩ := h p (by simp)
    subst ha he hw hp
    simp [get_instance, checkResource, hfa, hfe, hfw, hfp]
  · intro hall hex
    match ha : a, he : e, hw : w, hp : p with
    | some sa, some se, some sw, some sp =>
      cases hfa : isFile sa with
      | false =>
        exact ⟨sa, by simp [get_instance, checkResource, hfa], hfa⟩
      | true =>
        cases hfe : isFile se with
        | false =>
          exact ⟨se, by simp [get_instance, checkResource, hfa, hfe], hfe⟩
        | true =>
          cases hfw : isFile sw with
          | false =>
            exact ⟨sw,
              by simp [get_instance, checkResource, hfa, hfe, hfw], hfw⟩
          | true =>
            cases hfp : isFile sp with
            | false =>
              exact ⟨sp,
                by simp [get_instance, checkResource, hfa, hfe, hfw, hfp],
                hfp⟩
            | true =>
              exfalso
              obtain ⟨q, hq, s, hqs, hfs⟩ := hex
              simp only [List.mem_cons, List.not_mem_nil, or_false] at hq
              rcases hq with h1 | h1 | h1 | h1 <;> rw [h1] at hqs <;>
                cases hqs <;> simp_all
    | none, _, _, _ => exact absurd rfl (hall none (by simp))
    | some _, none, _, _ => exact absurd rfl (hall none (by simp))
    | some _, some _, none, _ => exact absurd rfl (hall none (by simp))
    | some _, some _, some _, none =>
      exact absurd rfl (hall none (by simp))
  · intro hnone hfiles
    match ha : a, he : e, hw : w, hp : p with
    | none, _, _, _ => simp [get_instance, checkResource]
    | some sa, none, _, _ =>
      have hfa : isFile sa = true := hfiles (some sa) (by simp) sa rfl
      simp [get_instance, checkResource, hfa]
    | some sa, some se, none, _ =>
      have hfa : isFile sa = true := hfiles (some sa) (by simp) sa rfl
      have hfe : isFile se = true := hfiles (some se) (by simp) se rfl
      simp [get_instance, checkResource, hfa, hfe]
    | some sa, some se, some sw, none =>
      have hfa : isFile sa = true := hfiles (some sa) (by simp) sa rfl
      have hfe : isFile se = true := hfiles (some se) (by simp) se rfl
      have hfw : isFile sw = true := hfiles (some sw) (by simp) sw rfl
      simp [get_instance, checkResource, hfa, hfe, hfw]
    | some sa, some se, some sw, some sp =>
      exfalso
      obtain ⟨q, hq, hqn⟩ := hnone
      simp only [List.mem_cons, List.not_mem_nil, or_false] at hq
      rcases hq with h1 | h1 | h1 | h1 <;> rw [h1] at hqn <;> cases hqn

/-- Witness for C8's amended statement: success when all four resolve,
the resource error when a path is present but missing, and the
validation error when an argument is omitted. -/
theorem get_instance_check_order_amended_witness :
    get_instance (fun s => s == "f") (some "f") (some "f") (some "f")
      (some "f") = Except.ok () ∧
    (∃ s, get_instance (fun s => s == "f") (some "g") (some "f")
      (some "f") (some "f") =
        Except.error (BuildError.resourceNotFound s) ∧
        (fun s => s == "f") s = false) ∧
    get_instance (fun s => s == "f") (some "f") none (some "f")
      (some "f") = Except.error (BuildError.validation
        "A value of an argument is not defined.") :=
  ⟨(get_instance_check_order_amended (fun s => s == "f") (some "f")
      (some "f") (some "f") (some "f")).1 (by decide),
    (get_instance_check_order_amended (fun s => s == "f") (some "g")
      (some "f") (some "f") (some "f")).2.1 (by decide) (by decide),
    (get_instance_check_order_amended (fun s => s == "f") (some "f")
      none (some "f") (some "f")).2.2 (by decide) (by decide)⟩

/-! ## Claim C1: the mask → word-map → restore cycle -/

/-- The per-position effect of `_set_to_blank` on the sequence: a token
equal to a found pronunciation becomes the blank. -/
def maskBlank (words : List String) (w : String) : String :=
  if w ∈ words then "" else w

/-- The sequence component of `_set_to_blank` blanks exactly the
positions whose token is a found pronunciation. -/
theorem setToBlankGo_fst (words : List String) :
    ∀ (seq : List String) (i : Nat) (ret : List (String × Nat)),
    (setToBlankGo words i ret seq).1 = seq.map (maskBlank words) := by
  intro seq
  induction seq with
  | nil => intro i ret; rfl
  | cons w t ih =>
    intro i ret
    simp only [setToBlankGo]
    by_cases hw : w ∈ words
    · rw [if_pos hw]
      simp [maskBlank, hw, ih]
    · rw [if_neg hw]
      simp [maskBlank, hw, ih]

/-- The dict `_set_to_blank` builds when no overwriting happens: one
entry per position whose token is a found pronunciation, in ascending
position order. -/
def retSpec (words : List String) : Nat → List String → List (String × Nat)
  | _, [] => []
  | i, w :: t =>
    if w ∈ words then (w, i) :: retSpec words (i + 1) t
    else retSpec words (i + 1) t

theorem lookup_append_single_none {β : Type} (u : String)
    (l : List (String × β)) (w : String) (v : β)
    (h1 : List.lookup u l = none) (h2 : u ≠ w) :
    List.lookup u (l ++ [(w, v)]) = none := by
  induction l with
  | nil =>
    simp only [List.nil_append, List.lookup]
    rw [beq_eq_false_iff_ne.mpr h2]
  | cons q t ih =>
    obtain ⟨k1, v1⟩ := q
    simp only [List.lookup, List.cons_append] at h1 ⊢
    cases hk : u == k1
    · rw [hk] at h1
      exact ih h1
    · rw [hk] at h1
      cases h1

theorem insertAssoc_of_lookup_none {β : Type} (l : List (String × β))
    (k : String) (v : β) (h : List.lookup k l = none) :
    insertAssoc l k v = l ++ [(k, v)] := by
  induction l with
  | nil => rfl
  | cons q t ih =>
    obtain ⟨k1, v1⟩ := q
    simp only [insertAssoc, List.cons_append]
    simp only [List.lookup] at h
    cases hk : k1 == k
    · have hne : k ≠ k1 := Ne.symm (beq_eq_false_iff_ne.mp hk)
      rw [beq_eq_false_iff_ne.mpr hne] at h
      simp [ih h]
    · have heq : k1 = k := beq_iff_eq.mp hk
      subst heq
      simp at h

/-- With every found pronunciation occupying at most one position and no
processed token already booked in the accumulator, the dict built by
`_set_to_blank` is the position-ordered record `retSpec`. -/
theorem setToBlankGo_snd (words : List String) :
    ∀ (seq : List String) (i : Nat) (ret : List (String × Nat)),
    (∀ w ∈ words, seq.count w ≤ 1) →
    (∀ u ∈ seq, u ∈ words → List.lookup u ret = none) →
    (setToBlankGo words i ret seq).2 = ret ++ retSpec words i seq := by
  intro seq
  induction seq with
  | nil => intro i ret _ _; simp [setToBlankGo, retSpec]
  | cons w t ih =>
    intro i ret hc hr
    simp only [setToBlankGo, retSpec]
    by_cases hw : w ∈ words
    · rw [if_pos hw, if_pos hw]
      have hnone : List.lookup w ret = none := hr w (by simp) hw
      rw [insertAssoc_of_lookup_none ret w i hnone]
      rw [ih (i + 1) (ret ++ [(w, i)]) ?_ ?_]
      · simp
      · intro u hu
        have := hc u hu
        rw [List.count_cons] at this
        omega
      · intro u hu huw
        by_cases hueq : u = w
        · exfalso
          subst hueq
          have h1 := hc u hw
          rw [List.count_cons] at h1
          have h2 : 0 < t.count u := List.count_pos_iff.mpr hu
          simp at h1
          omega
        · exact lookup_append_single_none u ret w i
            (hr u (by simp [hu]) huw) hueq
    · rw [if_neg hw, if_neg hw]
      refine ih (i + 1) ret ?_ ?_
      · intro u hu
        have := hc u hu
        rw [List.count_cons] at this
        omega
      · intro u hu huw
        exact hr u (by simp [hu]) huw

/-- Membership in `retSpec`: exactly the pronunciation tokens of the
sequence together with their positions. -/
theorem mem_retSpec (words : List String) :
    ∀ (seq : List String) (i : Nat) (w : String) (j : Nat),
    ((w, j) ∈ retSpec words i seq ↔
      ∃ p : Nat, j = i + p ∧ seq[p]? = some w ∧ w ∈ words) := by
  intro seq
  induction seq with
  | nil =>
    intro i w j
    simp [retSpec]
  | cons x t ih =>
    intro i w j
    simp only [retSpec]
    by_cases hx : x ∈ words
    · rw [if_pos hx]
      constructor
      · intro h
        rcases List.mem_cons.mp h with h1 | h1
        · injection h1 with hw hj
          exact ⟨0, by omega, by simp [hw.symm], hw ▸ hx⟩
        · obtain ⟨p, hp, hsp, hw⟩ := (ih (i + 1) w j).mp h1
          exact ⟨p + 1, by omega, by simpa using hsp, hw⟩
      · rintro ⟨p, hp, hsp, hw⟩
        cases p with
        | zero =>
          simp only [List.getElem?_cons_zero, Option.some.injEq] at hsp
          subst hsp
          exact List.mem_cons.mpr (Or.inl (by simp [hp]))
        | succ q =>
          refine List.mem_cons.mpr (Or.inr ((ih (i + 1) w j).mpr
            ⟨q, by omega, by simpa using hsp, hw⟩))
    · rw [if_neg hx]
      rw [ih (i + 1) w j]
      constructor
      · rintro ⟨p, hp, hsp, hw⟩
        exact ⟨p + 1, by omega, by simpa using hsp, hw⟩
      · rintro ⟨p, hp, hsp, hw⟩
        cases p with
        | zero =>
          simp only [List.getElem?_cons_zero, Option.some.injEq] at hsp
          exact absurd (hsp ▸ hw) hx
        | succ q =>
          exact ⟨q, by omega, by simpa using hsp, hw⟩

/-- Every index recorded in `retSpec words i seq` is at least `i`. -/
theorem retSpec_index_ge (words : List String) :
    ∀ (seq : List String) (i : Nat) (q : String × Nat),
    q ∈ retSpec words i seq → i ≤ q.2 := by
  intro seq
  induction seq with
  | nil => intro i q h; simp [retSpec] at h
  | cons x t ih =>
    intro i q h
    simp only [retSpec] at h
    by_cases hx : x ∈ words
    · rw [if_pos hx] at h
      rcases List.mem_cons.mp h with h1 | h1
      · subst h1; exact Nat.le_refl i
      · exact Nat.le_of_succ_le (ih (i + 1) q h1)
    · rw [if_neg hx] at h
      exact Nat.le_of_succ_le (ih (i + 1) q h)

/-- The recorded indices are pairwise distinct. -/
theorem retSpec_indices_nodup (words : List String) :
    ∀ (seq : List String) (i : Nat),
    (retSpec words i seq).Pairwise (fun q1 q2 => q1.2 ≠ q2.2) := by
  intro seq
  induction seq with
  | nil => intro i; simp [retSpec]
  | cons x t ih =>
    intro i
    simp only [retSpec]
    by_cases hx : x ∈ words
    · rw [if_pos hx]
      refine List.Pairwise.cons ?_ (ih (i + 1))
      intro q hq
      have := retSpec_index_ge words t (i + 1) q hq
      omega
    · rw [if_neg hx]
      exact ih (i + 1)

/-- `_fill` preserves the length of the sequence. -/
theorem fill_length (ret : List (String × Nat)) :
    ∀ m : List String, (fill m ret).length = m.length := by
  induction ret with
  | nil => intro m; rfl
  | cons q rest ih =>
    intro m
    simp only [fill, List.foldl_cons]
    have := ih (m.set q.2 q.1)
    simp only [fill] at this
    rw [this, List.length_set]

/-- A position recorded by no dict entry is untouched by `_fill`. -/
theorem fill_getElem_not_mem (p : Nat) :
    ∀ (ret : List (String × Nat)) (m : List String),
    (∀ q ∈ ret, q.2 ≠ p) → (fill m ret)[p]? = m[p]? := by
  intro ret
  induction ret with
  | nil => intro m _; rfl
  | cons q rest ih =>
    intro m h
    simp only [fill, List.foldl_cons]
    have h1 := ih (m.set q.2 q.1) (fun u hu => h u (by simp [hu]))
    simp only [fill] at h1
    rw [h1]
    exact List.getElem?_set_ne (h q (by simp))

/-- A position recorded by exactly one dict entry receives that entry's
pronunciation. -/
theorem fill_getElem_mem (w : String) (p : Nat) :
    ∀ (ret : List (String × Nat)) (m : List String),
    ret.Pairwise (fun q1 q2 => q1.2 ≠ q2.2) → (w, p) ∈ ret →
    p < m.length → (fill m ret)[p]? = some w := by
  intro ret
  induction ret with
  | nil => intro m _ h _; simp at h
  | cons q rest ih =>
    intro m hnd hmem hp
    obtain ⟨hhead, htail⟩ := List.pairwise_cons.mp hnd
    rcases List.mem_cons.mp hmem with h1 | h1
    · subst h1
      simp only [fill, List.foldl_cons]
      have h2 := fill_getElem_not_mem p rest (m.set p w)
        (fun u hu => Ne.symm (hhead u hu))
      simp only [fill] at h2
      rw [h2]
      exact List.getElem?_set_eq_of_lt w hp
    · simp only [fill, List.foldl_cons]
      have h2 := ih (m.set q.2 q.1) htail h1 (by rw [List.length_set]; exact hp)
      simp only [fill] at h2
      exact h2

/-- C1 (amended): for every resolved sequence `s` with found
pronunciations `pho` in which each found pronunciation value occupies at
most one position, the full mask → word-map → restore cycle of `encode`
keeps the length and sends every position to exactly one of the two
substitutions: a position holding a found pronunciation keeps it (exactly
where it stood immediately after masking) and every other position gets
the word-level pronunciation or its surface fallback; no blank
placeholder remains. -/
theorem mask_restore_non_interference (word_ipa : List (String × String))
    (s pho : List String) (h : ∀ w ∈ pho, s.count w ≤ 1) :
    (maskWordRestore word_ipa s pho).length = s.length ∧
    ∀ i : Nat, (maskWordRestore word_ipa s pho)[i]? =
      (s[i]?).map (fun w => if w ∈ pho then w
        else wordPronunciationLookup word_ipa w) := by
  have hfst : (set_to_blank s pho).1 = s.map (maskBlank pho) :=
    setToBlankGo_fst pho s 0 []
  have hsnd : (set_to_blank s pho).2 = retSpec pho 0 s := by
    have h2 := setToBlankGo_snd pho s 0 [] h (fun u _ _ => rfl)
    simpa using h2
  have hm : wordPronunciation_transform word_ipa (set_to_blank s pho).1 =
      s.map (fun w => wordPronunciationLookup word_ipa (maskBlank pho w)) := by
    rw [hfst, wordPronunciation_transform_eq_map, List.map_map]
    rfl
  have hmlen :
      (wordPronunciation_transform word_ipa (set_to_blank s pho).1).length =
        s.length := by
    rw [hm, List.length_map]
  constructor
  · show (fill (wordPronunciation_transform word_ipa (set_to_blank s pho).1)
      (set_to_blank s pho).2).length = s.length
    rw [fill_length, hmlen]
  · intro i
    show (fill (wordPronunciation_transform word_ipa (set_to_blank s pho).1)
      (set_to_blank s pho).2)[i]? = _
    cases hsi : s[i]? with
    | none =>
      have hlen : s.length ≤ i := by
        by_contra hlt
        push_neg at hlt
        rw [List.getElem?_eq_getElem hlt] at hsi
        cases hsi
      rw [List.getElem?_eq_none (by rw [fill_length, hmlen]; exact hlen)]
      rfl
    | some w =>
      obtain ⟨hilt, hval⟩ := List.getElem?_eq_some.mp hsi
      by_cases hw : w ∈ pho
      · have hmem : (w, i) ∈ retSpec pho 0 s :=
          (mem_retSpec pho s 0 w i).mpr ⟨i, by omega, hsi, hw⟩
        have hres := fill_getElem_mem w i (retSpec pho 0 s)
          (wordPronunciation_transform word_ipa (set_to_blank s pho).1)
          (retSpec_indices_nodup pho s 0) hmem (by rw [hmlen]; exact hilt)
        rw [hsnd, hres]
        simp [hw]
      · have hnot : ∀ q ∈ retSpec pho 0 s, q.2 ≠ i := by
          intro q hq hqi
          obtain ⟨qw, qi⟩ := q
          obtain ⟨p, hp, hsp, hwq⟩ := (mem_retSpec pho s 0 qw qi).mp hq
          simp only at hqi
          have hpi : p = i := by omega
          rw [hpi, hsi] at hsp
          injection hsp with hsp1
          exact hw (hsp1 ▸ hwq)
        have hres := fill_getElem_not_mem i (retSpec pho 0 s)
          (wordPronunciation_transform word_ipa (set_to_blank s pho).1) hnot
        rw [hsnd, hres, hm, List.getElem?_map, hsi]
        simp [maskBlank, hw]

/-- Witness for C1's amended statement at a concrete input: with
`s = ["p", "b"]` and the single found pronunciation `"p"`, the final
sequence keeps `"p"` at position 0 and maps `"b"` at position 1. -/
theorem mask_restore_non_interference_witness :
    (maskWordRestore [("b", "B")] ["p", "b"] ["p"]).length = 2 ∧
    (maskWordRestore [("b", "B")] ["p", "b"] ["p"])[0]? = some "p" ∧
    (maskWordRestore [("b", "B")] ["p", "b"] ["p"])[1]? = some "B" := by
  have h := mask_restore_non_interference [("b", "B")] ["p", "b"] ["p"]
    (by decide)
  refine ⟨h.1, ?_, ?_⟩
  · rw [h.2 0]
    decide
  · rw [h.2 1]
    decide

/-- C1 (counterexample): when the same pronunciation value occupies two
masked positions — here the expression `"a b"` occurs twice in the
document, so `_ExprPronunciation` resolves the tokens to `["p", "p"]`
with found list `["p"]` — the dict of `_set_to_blank` keeps only the
last position and `_fill` restores only it: the final sequence is
`["", "p"]`, a blank placeholder survives at position 0 and the
pronunciation positions after masking are not all preserved. -/
theorem mask_restore_duplicate_pronunciation_blank :
    exprPronunciation_transform [("a b", "p")] ["a", "b", "a", "b"] =
      (["p", "p"], ["p"]) ∧
    maskWordRestore [] ["p", "p"] ["p"] = ["", "p"] ∧
    encode [] [("a b", "p")] [] (fun _ => "") (fun s => s) ["a b a b"] =
      Except.ok [["", "p"]] := by
  exact ⟨by decide, by decide, rfl⟩

end Stenographer
